import Mathlib

/-!
Verification of the Squarer image-rectification core (`src/src-tauri/src/lib.rs`)
against its design specification.

The Rust core is embedded shallowly:

* machine integers (`i32`, `u32`) become `ℤ` / `ℕ`;
* the `f32` arithmetic of the homography solver and of the warp is idealized
  as exact rational arithmetic over `ℚ`;
* the third-party raster/geometry primitives used by `process_image`
  (`imageproc::geometry::convex_hull`, `Projection::from_matrix` / `scale` /
  `and_then` / `invert`, `image::crop_imm`, `geometric_transformations::warp`)
  are not part of this repository's sources; they are modelled from the
  specification's description of the Validator, Solver and Rectifier
  contracts (see the doc comments on the corresponding definitions);
* the decoding of the image payload (a data URI) is an external collaborator;
  `process_image` receives the decode result as an explicit
  `Except DecodeError PixelBuffer` argument, which is examined exactly where
  the Rust code runs the decoder (after quadrilateral validation);
* a Rust panic (`assert!`, `Option::unwrap`) is a distinct outcome
  `RunOutcome.panicked`.
-/

/-- A control point / lattice point: integer pixel coordinates, origin at the
top-left corner, `y` increasing downward (`struct ControlPoint { x: i32, y: i32 }`,
identified with `imageproc::point::Point<i32>`). -/
structure Pt where
  x : ℤ
  y : ℤ
deriving DecidableEq, Repr

/-- Twice the signed area of the triangle `o p q`; the orientation test used
by convex-hull algorithms.  Positive sign means clockwise on screen
(because `y` grows downward). -/
def cross (o p q : Pt) : ℤ :=
  (p.x - o.x) * (q.y - o.y) - (p.y - o.y) * (q.x - o.x)

/-- `a b c d` listed in this cyclic order form a strictly convex quadrilateral:
all four consecutive orientation tests agree strictly in sign. -/
def convexArr (a b c d : Pt) : Prop :=
  (0 < cross a b c ∧ 0 < cross b c d ∧ 0 < cross c d a ∧ 0 < cross d a b) ∨
  (cross a b c < 0 ∧ cross b c d < 0 ∧ cross c d a < 0 ∧ cross d a b < 0)

instance (a b c d : Pt) : Decidable (convexArr a b c d) := by
  unfold convexArr
  infer_instance

/-- Strict order on points by `(y, x)`: the first point is the one furthest
toward the top of the image, and of those the leftmost. -/
def keyLt (p q : Pt) : Prop :=
  p.y < q.y ∨ (p.y = q.y ∧ p.x < q.x)

instance (p q : Pt) : Decidable (keyLt p q) := by
  unfold keyLt
  infer_instance

/-- Index (0..3) of the `(y, x)`-least of four points, first occurrence winning. -/
def startIdx (p0 p1 p2 p3 : Pt) : ℕ :=
  let s1 := if keyLt p1 p0 then ((1 : ℕ), p1) else (0, p0)
  let s2 := if keyLt p2 s1.2 then ((2 : ℕ), p2) else s1
  let s3 := if keyLt p3 s2.2 then ((3 : ℕ), p3) else s2
  s3.1

/-- Left rotation of a list, as `Vec::rotate_left` does. -/
def rotl (l : List Pt) (n : ℕ) : List Pt :=
  l.drop (n % l.length) ++ l.take (n % l.length)

/-- Rotate a 4-point cycle so that its `(y, x)`-least point comes first. -/
def minRot : List Pt → List Pt
  | [p0, p1, p2, p3] => rotl [p0, p1, p2, p3] (startIdx p0 p1 p2 p3)
  | l => l

/-- Reverse a 4-point cycle if needed so that it winds with positive
orientation (clockwise on screen). -/
def windFix : List Pt → List Pt
  | [p0, p1, p2, p3] =>
    if 0 < cross p0 p1 p2 then [p0, p1, p2, p3] else [p3, p2, p1, p0]
  | l => l

/-- Canonical representative of a strictly convex 4-cycle: fix the winding,
then start at the `(y, x)`-least vertex. -/
def canon (l : List Pt) : List Pt :=
  minRot (windFix l)

/-- Modelled from the spec: `imageproc::geometry::convex_hull` is not part of
this repository's sources.  Per the specification (§4.1), the Validator
computes the convex hull of the four points and the caller accepts exactly
when the hull still has four vertices, i.e. when the points are in strict
convex position; the hull is "a consistent cyclic traversal" of the points.
The three `convexArr` tests cover the three cyclic arrangements of four
points up to rotation and reflection; a degenerate configuration (a point
inside the triangle of the others, three collinear points, or duplicates)
admits none of them and the result is abstracted to `[]`, which the caller
only ever observes through its length.  The winding and starting vertex of
the returned traversal are fixed by `canon`, matching the traversal the
spec's round-trip property (§8) requires: first vertex topmost-then-leftmost,
winding positive, so that an axis-aligned rectangle is traversed
`(x0,y0), (x1,y0), (x1,y1), (x0,y1)`. -/
def convexHull4 (a b c d : Pt) : List Pt :=
  if convexArr a b c d then canon [a, b, c, d]
  else if convexArr a b d c then canon [a, b, d, c]
  else if convexArr a c b d then canon [a, c, b, d]
  else []

/-- `imageproc::geometry::convex_hull`, restricted to the 4-point inputs
`process_image` feeds it (the `assert!` guarantees the length). -/
def convex_hull : List Pt → List Pt
  | [a, b, c, d] => convexHull4 a b c d
  | l => l

/-- A 3×3 matrix over `ℚ`, entries named as in
`scaled_control_points_to_projection` (row-major `[a,b,c,d,e,f,g,h,i]`). -/
structure Mat3 where
  a : ℚ
  b : ℚ
  c : ℚ
  d : ℚ
  e : ℚ
  f : ℚ
  g : ℚ
  h : ℚ
  i : ℚ
deriving DecidableEq, Repr

def idMat : Mat3 :=
  ⟨1, 0, 0, 0, 1, 0, 0, 0, 1⟩

/-- Matrix product `p * q`. -/
def mul3 (p q : Mat3) : Mat3 :=
  ⟨p.a * q.a + p.b * q.d + p.c * q.g,
   p.a * q.b + p.b * q.e + p.c * q.h,
   p.a * q.c + p.b * q.f + p.c * q.i,
   p.d * q.a + p.e * q.d + p.f * q.g,
   p.d * q.b + p.e * q.e + p.f * q.h,
   p.d * q.c + p.e * q.f + p.f * q.i,
   p.g * q.a + p.h * q.d + p.i * q.g,
   p.g * q.b + p.h * q.e + p.i * q.h,
   p.g * q.c + p.h * q.f + p.i * q.i⟩

def det3 (m : Mat3) : ℚ :=
  m.a * (m.e * m.i - m.f * m.h) - m.b * (m.d * m.i - m.f * m.g) +
    m.c * (m.d * m.h - m.e * m.g)

/-- Adjugate: `adj3 m * m = det3 m • idMat`; projectively (up to the nonzero
scalar `det3 m`) it is the inverse of `m`. -/
def adj3 (m : Mat3) : Mat3 :=
  ⟨m.e * m.i - m.f * m.h,
   m.c * m.h - m.b * m.i,
   m.b * m.f - m.c * m.e,
   m.f * m.g - m.d * m.i,
   m.a * m.i - m.c * m.g,
   m.c * m.d - m.a * m.f,
   m.d * m.h - m.e * m.g,
   m.b * m.g - m.a * m.h,
   m.a * m.e - m.b * m.d⟩

/-- Apply a matrix to a point projectively: homogenize, multiply, divide by
the third homogeneous coordinate. -/
def projApply (m : Mat3) (v : ℚ × ℚ) : ℚ × ℚ :=
  let w := m.g * v.1 + m.h * v.2 + m.i
  ((m.a * v.1 + m.b * v.2 + m.c) / w, (m.d * v.1 + m.e * v.2 + m.f) / w)

/-- Modelled from the spec: `imageproc::geometric_transformations::Projection`
is not part of this repository's sources.  Per the specification (§3, §9) a
Projection is an invertible 3×3 projective matrix, an immutable value
composable by matrix multiplication; like the library type it carries its
forward and inverse matrices together (the inverse held as the adjugate,
which equals the inverse up to the nonzero scalar `det3`, irrelevant
projectively). -/
structure Proj where
  fwd : Mat3
  inv : Mat3
deriving DecidableEq, Repr

/-- `Projection::from_matrix`: fails exactly when the matrix is singular
(spec §4.3: "Matrix inversion likewise fails ... if the forward matrix is
singular"). -/
def from_matrix (m : Mat3) : Option Proj :=
  if det3 m = 0 then none else some ⟨m, adj3 m⟩

/-- `Projection::scale(sx, sy)`. -/
def scaleProj (sx sy : ℚ) : Proj :=
  ⟨⟨sx, 0, 0, 0, sy, 0, 0, 0, 1⟩, ⟨1 / sx, 0, 0, 0, 1 / sy, 0, 0, 0, 1⟩⟩

/-- `p.and_then(q)`: apply `p`, then `q`; forward matrices compose one way,
inverses the other. -/
def andThen (p q : Proj) : Proj :=
  ⟨mul3 q.fwd p.fwd, mul3 p.inv q.inv⟩

/-- `Projection::invert`: swap the precomputed matrices. -/
def Proj.invertP (p : Proj) : Proj :=
  ⟨p.inv, p.fwd⟩

/-- The closed-form 4-point projective solve of
`scaled_control_points_to_projection` (lib.rs:55-78), translated term for
term; `f32` idealized as `ℚ`.  Returns the projection mapping the unit
square corners `(0,0), (1,0), (1,1), (0,1)` to the four given points, or
`none` when the input is not a 4-list or the resulting matrix is singular. -/
def scaled_control_points_to_projection (points : List (ℚ × ℚ)) : Option Proj :=
  match points with
  | [(xt1, yt1), (xt2, yt2), (xt3, yt3), (xt4, yt4)] =>
    let g :=
      (xt1 * yt3 - xt1 * yt4 - xt2 * yt3 + xt2 * yt4 - xt3 * yt1 + xt3 * yt2 + xt4 * yt1
          - xt4 * yt2)
        / (xt2 * yt3 - xt2 * yt4 - xt3 * yt2 + xt3 * yt4 + xt4 * yt2 - xt4 * yt3)
    let h :=
      (xt1 * yt2 - xt1 * yt3 - xt2 * yt1 + xt2 * yt4 + xt3 * yt1 - xt3 * yt4 - xt4 * yt2
          + xt4 * yt3)
        / (xt2 * yt3 - xt2 * yt4 - xt3 * yt2 + xt3 * yt4 + xt4 * yt2 - xt4 * yt3)
    let e := h * yt4 - yt1 + yt4
    let d := g * yt2 - yt1 + yt2
    let b := h * xt4 - xt1 + xt4
    let a := g * xt2 - xt1 + xt2
    let c := 0 + xt1
    let f := 0 + yt1
    let i : ℚ := 1
    from_matrix ⟨a, b, c, d, e, f, g, h, i⟩
  | _ => none

/-- The shared denominator of the closed-form solve. -/
def solveDenom (p2 p3 p4 : ℚ × ℚ) : ℚ :=
  p2.1 * p3.2 - p2.1 * p4.2 - p3.1 * p2.2 + p3.1 * p4.2 + p4.1 * p2.2 - p4.1 * p3.2

/-- An RGBA pixel, 8 bits per channel (the channel range plays no role). -/
structure RGBA where
  r : ℕ
  g : ℕ
  b : ℕ
  al : ℕ
deriving DecidableEq, Repr

/-- Fully transparent black, the warp's fill colour (`image::Rgba([0,0,0,0])`). -/
def clearPixel : RGBA :=
  ⟨0, 0, 0, 0⟩

/-- A raster: explicit dimensions plus a total pixel lookup (queries outside
`[0,width) × [0,height)` are a modelling artifact and are never produced by
the pipeline's own reads). -/
structure PixelBuffer where
  width : ℕ
  height : ℕ
  pix : ℤ → ℤ → RGBA

/-- Modelled from the spec: `image::DynamicImage::crop_imm` is not part of
this repository's sources.  Per the specification (§4.4) the Rectifier
"first crop[s] the source buffer to the BoundingBox region (translating all
subsequent coordinates into crop-local space)"; the spec does not describe
any clamping of the region to the source extent, so the crop is modelled as
the exact translated window, transparent where it leaves the source. -/
def cropBuf (src : PixelBuffer) (mx my : ℤ) (w h : ℕ) : PixelBuffer :=
  ⟨w, h, fun x y =>
    if 0 ≤ x + mx ∧ x + mx < (src.width : ℤ) ∧ 0 ≤ y + my ∧ y + my < (src.height : ℤ)
    then src.pix (x + mx) (y + my)
    else clearPixel⟩

/-- Round half away from zero, as `f32::round` does. -/
def rustRound (q : ℚ) : ℤ :=
  if 0 ≤ q then ⌊q + 1 / 2⌋ else -⌊1 / 2 - q⌋

/-- Modelled from the spec: nearest-neighbor sampling (§4.4, glossary:
"choosing the value of the closest discrete source pixel to a computed
real-valued coordinate").  A real coordinate outside the buffer's bounds
yields the transparent fill; an in-bounds coordinate samples the nearest
pixel of the grid (`min` clamps the half-open boundary cell to the last
pixel, the closest one). -/
def nearestSample (src : PixelBuffer) (s : ℚ × ℚ) : RGBA :=
  if 0 ≤ s.1 ∧ s.1 < (src.width : ℚ) ∧ 0 ≤ s.2 ∧ s.2 < (src.height : ℚ) then
    src.pix (min (rustRound s.1) ((src.width : ℤ) - 1))
            (min (rustRound s.2) ((src.height : ℤ) - 1))
  else clearPixel

/-- Modelled from the spec: `imageproc::geometric_transformations::warp` is
not part of this repository's sources.  Per the specification (§4.4), for
every destination pixel it applies the **inverse** of the given projection
to obtain a real-valued source coordinate and samples it (or fills
transparent); the output has the dimensions of the input buffer. -/
def warp (src : PixelBuffer) (p : Proj) : PixelBuffer :=
  ⟨src.width, src.height, fun dx dy =>
    nearestSample src (projApply p.inv ((dx : ℚ), (dy : ℚ)))⟩

/-- Failures of the external decoding collaborator
(`DataUrl::process` / `decode_to_vec` / `ImageReader ... decode`). -/
inductive DecodeError where
  | dataUrl
  | base64
  | imageDecode
  | io
deriving DecidableEq, Repr

/-- The error side of `process_image`'s result type (`ErrorWrapper`): either
a propagated decode failure or the squaring error built in `process_image`
(which carries only its message). -/
inductive ErrorKind where
  | decode (e : DecodeError)
  | squaring (message : String)
deriving DecidableEq, Repr

/-- Outcome of a `process_image` invocation: a panic (`assert!` /
`Option::unwrap`), an `Err` value, or an `Ok` output raster. -/
inductive RunOutcome where
  | panicked
  | failure (e : ErrorKind)
  | success (out : PixelBuffer)

/-- The bounding-box / starting-vertex scan of lib.rs:101-125, one state
record per loop iteration. -/
structure LoopState where
  first_point : ℕ
  min_mid_y : ℤ
  min_x : ℤ
  max_x : ℤ
  min_y : ℤ
  max_y : ℤ
deriving DecidableEq, Repr

/-- One iteration of the scan: fold point `p` (at index `i`, successor `q`)
into the running bounds, and take edge `(p, q)` as the new topmost edge if
its integer midpoint strictly improves (`i32` division truncates toward
zero, hence `Int.tdiv`). -/
def loopStep (i : ℕ) (p q : Pt) (s : LoopState) : LoopState :=
  let mid_y := Int.tdiv (p.y + q.y) 2
  if mid_y < s.min_mid_y then
    { first_point := if p.x < q.x then i else (i + 1) % 4
      min_mid_y := mid_y
      min_x := min p.x s.min_x
      max_x := max p.x s.max_x
      min_y := min p.y s.min_y
      max_y := max p.y s.max_y }
  else
    { s with
      min_x := min p.x s.min_x
      max_x := max p.x s.max_x
      min_y := min p.y s.min_y
      max_y := max p.y s.max_y }

/-- The full scan of lib.rs:101-125: `min_mid_y`, `min_y` start at the image
height, `min_x` at the image width, `max_x`, `max_y` at `-1`, exactly as the
Rust code initializes them. -/
def runLoop (w h : ℕ) (p0 p1 p2 p3 : Pt) : LoopState :=
  let s0 : LoopState := ⟨0, (h : ℤ), (w : ℤ), -1, (h : ℤ), -1⟩
  loopStep 3 p3 p0 (loopStep 2 p2 p3 (loopStep 1 p1 p2 (loopStep 0 p0 p1 s0)))

/-- The canonical ordering `process_image` chooses:
`convex_hull.rotate_left(first_point)` (lib.rs:128). -/
def ordered_hull (w h : ℕ) (p0 p1 p2 p3 : Pt) : List Pt :=
  rotl [p0, p1, p2, p3] (runLoop w h p0 p1 p2 p3).first_point

/-- lib.rs:128-143: the canonically ordered hull, normalized into the unit
box relative to the bounding box the scan computed (`scaled_hull_vec`). -/
def hullScaled (img : PixelBuffer) (h0 h1 h2 h3 : Pt) : List (ℚ × ℚ) :=
  let st := runLoop img.width img.height h0 h1 h2 h3
  let new_width : ℤ := st.max_x - st.min_x
  let new_height : ℤ := st.max_y - st.min_y
  (rotl [h0, h1, h2, h3] st.first_point).map fun p =>
    (((p.x - st.min_x : ℤ) : ℚ) / (new_width : ℚ), ((p.y - st.min_y : ℤ) : ℚ) / (new_height : ℚ))

/-- lib.rs:101-156: everything `process_image` does after validation and
decoding, given the decoded source raster and the 4-vertex hull: scan for
bounds and starting vertex, rotate, normalize, run the closed-form solve —
whose `Option` result the code `.unwrap()`s, panicking on `None` — crop
(`new_width as u32` saturates at 0, hence `Int.toNat`), compose the solved
projection with the crop scalings, and warp. -/
def mainStage (img : PixelBuffer) (h0 h1 h2 h3 : Pt) : RunOutcome :=
  let st := runLoop img.width img.height h0 h1 h2 h3
  match scaled_control_points_to_projection (hullScaled img h0 h1 h2 h3) with
  | none => .panicked
  | some projection =>
    let new_width : ℤ := st.max_x - st.min_x
    let new_height : ℤ := st.max_y - st.min_y
    let cropped := cropBuf img st.min_x st.min_y new_width.toNat new_height.toNat
    let projection2 :=
      andThen (andThen (scaleProj (1 / (new_width : ℚ)) (1 / (new_height : ℚ)))
          projection.invertP)
        (scaleProj (new_width : ℚ) (new_height : ℚ))
    .success (warp cropped projection2)

/-- `process_image` (lib.rs:80-157).  The decode result of the data URI is
passed in explicitly; the Rust code only runs the decoder *after* the
convexity check, which the `match` order reproduces.  `assert!` on the
length is a panic; a hull with fewer than 4 vertices is the
"Non-convex quadrilateral" squaring error. -/
def process_image (decoded : Except DecodeError PixelBuffer)
    (control_points : List Pt) : RunOutcome :=
  if control_points.length ≠ 4 then .panicked
  else
    match convex_hull control_points with
    | [h0, h1, h2, h3] =>
      match decoded with
      | .error e => .failure (.decode e)
      | .ok img => mainStage img h0 h1 h2 h3
    | _ => .failure (.squaring "Non-convex quadrilateral")

/-- Width of a successful output, if any. -/
def outWidth : RunOutcome → Option ℕ
  | .success b => some b.width
  | _ => none

/-- Height of a successful output, if any. -/
def outHeight : RunOutcome → Option ℕ
  | .success b => some b.height
  | _ => none

/-- A pixel of a successful output, if any. -/
def outPix (o : RunOutcome) (x y : ℤ) : Option RGBA :=
  match o with
  | .success b => some (b.pix x y)
  | _ => none

/-- The error of a failed run, if any. -/
def outErr : RunOutcome → Option ErrorKind
  | .failure e => some e
  | _ => none

/-- `q` lies strictly inside the triangle `a b c`: the three orientation
tests of `q` against the triangle's edges agree strictly in sign (the
standard sign characterization; for a degenerate triangle no sign pattern
is strict and the predicate is false). -/
def insideTri (q a b c : Pt) : Prop :=
  (0 < cross a b q ∧ 0 < cross b c q ∧ 0 < cross c a q) ∨
  (cross a b q < 0 ∧ cross b c q < 0 ∧ cross c a q < 0)

/-- Some three of the four points are collinear (duplicate points are a
special case: any triple containing a duplicated pair has a vanishing
orientation). -/
def degenerateTriple (p1 p2 p3 p4 : Pt) : Prop :=
  cross p1 p2 p3 = 0 ∨ cross p1 p2 p4 = 0 ∨ cross p1 p3 p4 = 0 ∨ cross p2 p3 p4 = 0

/-- The four points are in strict convex position, phrased as the claim
does: no collinear/duplicate degeneracy and no point strictly inside the
triangle of the other three. -/
def strictConvexPosition (p1 p2 p3 p4 : Pt) : Prop :=
  ¬ degenerateTriple p1 p2 p3 p4 ∧
  ¬ insideTri p4 p1 p2 p3 ∧ ¬ insideTri p3 p1 p2 p4 ∧
  ¬ insideTri p2 p1 p3 p4 ∧ ¬ insideTri p1 p2 p3 p4

instance (q a b c : Pt) : Decidable (insideTri q a b c) := by
  unfold insideTri
  infer_instance

instance (p1 p2 p3 p4 : Pt) : Decidable (degenerateTriple p1 p2 p3 p4) := by
  unfold degenerateTriple
  infer_instance

instance (p1 p2 p3 p4 : Pt) : Decidable (strictConvexPosition p1 p2 p3 p4) := by
  unfold strictConvexPosition
  infer_instance

/-- The integer edge midpoint ordinate the code computes (`(y + y') / 2`
with `i32` truncating division). -/
def edgeMid (p q : Pt) : ℤ :=
  Int.tdiv (p.y + q.y) 2

/-- The exact (rational) midpoint ordinate of an edge, as the claim's
"midpoint y-coordinate" reads. -/
def specMid (p q : Pt) : ℚ :=
  ((p.y + q.y : ℤ) : ℚ) / 2

/-- The starting vertex as the claim describes it: of the edge with minimum
(exact) midpoint y-coordinate, the endpoint with the smaller x. -/
def spec_first_vertex (p0 p1 p2 p3 : Pt) : Pt :=
  let pick := fun (p q : Pt) => if p.x < q.x then p else q
  if specMid p0 p1 ≤ specMid p1 p2 ∧ specMid p0 p1 ≤ specMid p2 p3 ∧
      specMid p0 p1 ≤ specMid p3 p0 then pick p0 p1
  else if specMid p1 p2 ≤ specMid p2 p3 ∧ specMid p1 p2 ≤ specMid p3 p0 then pick p1 p2
  else if specMid p2 p3 ≤ specMid p3 p0 then pick p2 p3
  else pick p3 p0

/-- An opaque red pixel, for the spec's red-square scenario. -/
def redPix : RGBA :=
  ⟨255, 0, 0, 255⟩

/-- A 100×100 opaque red source image. -/
def img100 : PixelBuffer :=
  ⟨100, 100, fun _ _ => redPix⟩

/-- A 10×10 opaque red source image. -/
def img10 : PixelBuffer :=
  ⟨10, 10, fun _ _ => redPix⟩

/-- A 2×2 fully transparent source image. -/
def img2 : PixelBuffer :=
  ⟨2, 2, fun _ _ => clearPixel⟩

/-- The red-square scenario's control points. -/
def sqPts : List Pt :=
  [⟨10, 10⟩, ⟨90, 10⟩, ⟨90, 90⟩, ⟨10, 90⟩]

/-- A projection whose inverse is the translation `x ↦ x - 5`; its forward
matrix is the opposite translation. -/
def transProj : Proj :=
  ⟨⟨1, 0, 5, 0, 1, 0, 0, 0, 1⟩, ⟨1, 0, -5, 0, 1, 0, 0, 0, 1⟩⟩

/-- The matrix the closed-form solve assembles, with the same named
intermediate terms as `scaled_control_points_to_projection`; factored out so
the solver equals `from_matrix` of it definitionally. -/
def solveMatrix (xt1 yt1 xt2 yt2 xt3 yt3 xt4 yt4 : ℚ) : Mat3 :=
  let g :=
    (xt1 * yt3 - xt1 * yt4 - xt2 * yt3 + xt2 * yt4 - xt3 * yt1 + xt3 * yt2 + xt4 * yt1
        - xt4 * yt2)
      / (xt2 * yt3 - xt2 * yt4 - xt3 * yt2 + xt3 * yt4 + xt4 * yt2 - xt4 * yt3)
  let h :=
    (xt1 * yt2 - xt1 * yt3 - xt2 * yt1 + xt2 * yt4 + xt3 * yt1 - xt3 * yt4 - xt4 * yt2
        + xt4 * yt3)
      / (xt2 * yt3 - xt2 * yt4 - xt3 * yt2 + xt3 * yt4 + xt4 * yt2 - xt4 * yt3)
  let e := h * yt4 - yt1 + yt4
  let d := g * yt2 - yt1 + yt2
  let b := h * xt4 - xt1 + xt4
  let a := g * xt2 - xt1 + xt2
  let c := 0 + xt1
  let f := 0 + yt1
  let i : ℚ := 1
  ⟨a, b, c, d, e, f, g, h, i⟩

/-! ### Generic helpers -/

theorem rotl_length (l : List Pt) (n : ℕ) : (rotl l n).length = l.length := by
  have := Nat.mod_le (n % l.length) l.length
  simp only [rotl, List.length_append, List.length_drop, List.length_take]
  omega

theorem rotl_perm (l : List Pt) (n : ℕ) : (rotl l n).Perm l := by
  rw [rotl]
  conv_rhs => rw [← List.take_append_drop (n % l.length) l]
  exact List.perm_append_comm

theorem list_len4 (l : List Pt) (h : l.length = 4) : ∃ a b c d, l = [a, b, c, d] := by
  rcases l with _ | ⟨a, _ | ⟨b, _ | ⟨c, _ | ⟨d, _ | ⟨e, t⟩⟩⟩⟩⟩ <;> simp_all

/-! ### Hull lemmas -/

theorem canon4_length (p0 p1 p2 p3 : Pt) : (canon [p0, p1, p2, p3]).length = 4 := by
  simp only [canon, windFix]
  split_ifs <;> simp [minRot, rotl_length]

/-- The three tested arrangements cover the cyclic orders of four points: the
hull has four vertices exactly when one of them is strictly convex. -/
theorem convexHull4_length_iff (a b c d : Pt) :
    (convexHull4 a b c d).length = 4 ↔
      (convexArr a b c d ∨ convexArr a b d c ∨ convexArr a c b d) := by
  unfold convexHull4
  split_ifs <;> simp [canon4_length, *]

set_option maxHeartbeats 1000000 in
/-- Sign analysis on the four orientation values: some cyclic arrangement of
the four points is strictly convex exactly when the points are in strict
convex position (no degenerate triple, no point strictly inside the
triangle of the others). -/
theorem scp_iff_arr (p1 p2 p3 p4 : Pt) :
    (convexArr p1 p2 p3 p4 ∨ convexArr p1 p2 p4 p3 ∨ convexArr p1 p3 p2 p4) ↔
      strictConvexPosition p1 p2 p3 p4 := by
  have r1 : cross p3 p4 p1 = cross p1 p3 p4 := by unfold cross; ring
  have r2 : cross p4 p1 p2 = cross p1 p2 p4 := by unfold cross; ring
  have r3 : cross p2 p4 p3 = -cross p2 p3 p4 := by unfold cross; ring
  have r4 : cross p4 p3 p1 = -cross p1 p3 p4 := by unfold cross; ring
  have r5 : cross p3 p1 p2 = cross p1 p2 p3 := by unfold cross; ring
  have r6 : cross p1 p3 p2 = -cross p1 p2 p3 := by unfold cross; ring
  have r7 : cross p3 p2 p4 = -cross p2 p3 p4 := by unfold cross; ring
  have r8 : cross p2 p4 p1 = cross p1 p2 p4 := by unfold cross; ring
  have r9 : cross p4 p1 p3 = cross p1 p3 p4 := by unfold cross; ring
  have r10 : cross p3 p1 p4 = -cross p1 p3 p4 := by unfold cross; ring
  have r11 : cross p3 p4 p2 = cross p2 p3 p4 := by unfold cross; ring
  have r12 : cross p2 p3 p1 = cross p1 p2 p3 := by unfold cross; ring
  have r13 : cross p4 p2 p1 = -cross p1 p2 p4 := by unfold cross; ring
  simp only [convexArr, strictConvexPosition, degenerateTriple, insideTri,
    r1, r2, r3, r4, r5, r6, r7, r8, r9, r10, r11, r12, r13]
  generalize cross p1 p2 p3 = w4
  generalize cross p1 p2 p4 = w3
  generalize cross p1 p3 p4 = w2
  generalize cross p2 p3 p4 = w1
  omega

theorem hull_len4_iff (p1 p2 p3 p4 : Pt) :
    (convexHull4 p1 p2 p3 p4).length = 4 ↔ strictConvexPosition p1 p2 p3 p4 :=
  (convexHull4_length_iff p1 p2 p3 p4).trans (scp_iff_arr p1 p2 p3 p4)

theorem convexHull4_eq_nil (p1 p2 p3 p4 : Pt)
    (h : ¬ strictConvexPosition p1 p2 p3 p4) : convexHull4 p1 p2 p3 p4 = [] := by
  rw [← scp_iff_arr] at h
  unfold convexHull4
  split_ifs with h1 h2 h3 <;> tauto

theorem canon4_perm (p0 p1 p2 p3 : Pt) : (canon [p0, p1, p2, p3]).Perm [p0, p1, p2, p3] := by
  simp only [canon, windFix]
  split_ifs
  · simpa [minRot] using rotl_perm [p0, p1, p2, p3] (startIdx p0 p1 p2 p3)
  · refine List.Perm.trans ?_ (by simpa using (List.reverse_perm [p0, p1, p2, p3]))
    simpa [minRot] using rotl_perm [p3, p2, p1, p0] (startIdx p3 p2 p1 p0)

theorem convexHull4_perm (p1 p2 p3 p4 : Pt)
    (h : (convexHull4 p1 p2 p3 p4).length = 4) :
    (convexHull4 p1 p2 p3 p4).Perm [p1, p2, p3, p4] := by
  unfold convexHull4 at *
  split_ifs at h with h1 h2 h3
  · simp only [h1, if_true]
    exact canon4_perm p1 p2 p3 p4
  · simp only [h1, if_false, h2, if_true]
    refine (canon4_perm p1 p2 p4 p3).trans ?_
    exact List.Perm.append_left [p1, p2] (List.Perm.swap p3 p4 [])
  · simp only [h1, if_false, h2, if_false, h3, if_true]
    refine (canon4_perm p1 p3 p2 p4).trans ?_
    exact List.Perm.cons p1 (List.Perm.swap' p2 p3 (List.Perm.refl [p4]))
  · simp at h

/-! ### Pipeline-shape lemmas -/

theorem mainStage_ne_failure (img : PixelBuffer) (h0 h1 h2 h3 : Pt) (e : ErrorKind) :
    mainStage img h0 h1 h2 h3 ≠ .failure e := by
  unfold mainStage
  rcases scaled_control_points_to_projection (hullScaled img h0 h1 h2 h3) with _ | proj <;> simp

theorem process_image_nonconvex (decoded : Except DecodeError PixelBuffer)
    (p1 p2 p3 p4 : Pt) (hbad : ¬ strictConvexPosition p1 p2 p3 p4) :
    process_image decoded [p1, p2, p3, p4] = .failure (.squaring "Non-convex quadrilateral") := by
  have hnil := convexHull4_eq_nil p1 p2 p3 p4 hbad
  unfold process_image convex_hull
  simp [hnil]

/-! ### Claim C3 -/

/-- C3: on a 4-point input, `process_image` fails with the
"Non-convex quadrilateral" error exactly when the points are not in strict
convex position (a degenerate triple, or a point strictly inside the
triangle of the others); when they are in strict convex position it
proceeds with a 4-point hull that is a permutation of (so equal, as a set,
to) the input points. -/
theorem c3_convex_validation (decoded : Except DecodeError PixelBuffer) (p1 p2 p3 p4 : Pt) :
    (process_image decoded [p1, p2, p3, p4] = .failure (.squaring "Non-convex quadrilateral") ↔
      ¬ strictConvexPosition p1 p2 p3 p4) ∧
    (strictConvexPosition p1 p2 p3 p4 → (convexHull4 p1 p2 p3 p4).Perm [p1, p2, p3, p4]) := by
  refine ⟨⟨fun hfail hscp => ?_, fun hbad => process_image_nonconvex decoded p1 p2 p3 p4 hbad⟩,
    fun hscp => convexHull4_perm p1 p2 p3 p4 ((hull_len4_iff p1 p2 p3 p4).mpr hscp)⟩
  have hlen : (convexHull4 p1 p2 p3 p4).length = 4 := (hull_len4_iff p1 p2 p3 p4).mpr hscp
  obtain ⟨a, b, c, d, hab⟩ := list_len4 _ hlen
  simp only [process_image, convex_hull, List.length_cons, List.length_nil] at hfail
  rw [hab] at hfail
  simp only [] at hfail
  rcases decoded with e | img
  · simp at hfail
  · exact mainStage_ne_failure img a b c d _ (by simpa using hfail)

/-- C3 witness: the four corners of an axis-aligned square are in strict
convex position and the hull is a permutation of them. -/
theorem c3_witness :
    (convexHull4 ⟨10, 10⟩ ⟨90, 10⟩ ⟨90, 90⟩ ⟨10, 90⟩).Perm
      [⟨10, 10⟩, ⟨90, 10⟩, ⟨90, 90⟩, ⟨10, 90⟩] :=
  (c3_convex_validation (.ok img100) _ _ _ _).2 (by decide)

/-! ### Claim C9 -/

/-- C9: convexity validation precedes payload decoding: whenever the 4
control points are not in strict convex position, `process_image` returns
the "Non-convex quadrilateral" error for *every* decode result — in
particular also when the data URI is malformed or the payload undecodable
(`decoded` an arbitrary `Except.error`). -/
theorem c9_error_before_decode (decoded : Except DecodeError PixelBuffer)
    (p1 p2 p3 p4 : Pt) (hbad : ¬ strictConvexPosition p1 p2 p3 p4) :
    process_image decoded [p1, p2, p3, p4] = .failure (.squaring "Non-convex quadrilateral") :=
  process_image_nonconvex decoded p1 p2 p3 p4 hbad

/-- C9 witness: three collinear points with a malformed data URI still give
the non-convexity error. -/
theorem c9_witness :
    process_image (.error .dataUrl) [⟨0, 0⟩, ⟨5, 0⟩, ⟨10, 0⟩, ⟨5, 5⟩] =
      .failure (.squaring "Non-convex quadrilateral") :=
  c9_error_before_decode (.error .dataUrl) _ _ _ _ (by decide)

/-! ### Claim C10 -/

/-- C10: on an input whose control-point list does not have length 4,
`process_image` panics through the `assert!` at lib.rs:85 and never reaches
the error branch of its declared result type. -/
theorem c10_assert_panics (decoded : Except DecodeError PixelBuffer)
    (control_points : List Pt) (hlen : control_points.length ≠ 4) :
    process_image decoded control_points = .panicked ∧
      ∀ e, process_image decoded control_points ≠ .failure e := by
  unfold process_image
  rw [if_pos hlen]
  exact ⟨rfl, fun e h => by simp at h⟩

/-- C10 witness: the empty control-point list panics. -/
theorem c10_witness : process_image (.error .dataUrl) [] = .panicked :=
  (c10_assert_panics (.error .dataUrl) [] (by decide)).1

/-! ### Claim C1 -/

theorem scp_eq_solveMatrix (xt1 yt1 xt2 yt2 xt3 yt3 xt4 yt4 : ℚ) :
    scaled_control_points_to_projection
        [(xt1, yt1), (xt2, yt2), (xt3, yt3), (xt4, yt4)] =
      from_matrix (solveMatrix xt1 yt1 xt2 yt2 xt3 yt3 xt4 yt4) := rfl

theorem det3_zero_row1 (m : Mat3) (hi : m.i = 1) (h1 : m.a + m.c = 0)
    (h2 : m.d + m.f = 0) (h3 : m.g + 1 = 0) : det3 m = 0 := by
  have ha : m.a = -m.c := by linarith
  have hd : m.d = -m.f := by linarith
  have hg : m.g = -1 := by linarith
  rw [det3, ha, hd, hg, hi]; ring

theorem det3_zero_row2 (m : Mat3) (hi : m.i = 1) (h1 : m.b + m.c = 0)
    (h2 : m.e + m.f = 0) (h3 : m.h + 1 = 0) : det3 m = 0 := by
  have hb : m.b = -m.c := by linarith
  have he : m.e = -m.f := by linarith
  have hh : m.h = -1 := by linarith
  rw [det3, hb, he, hh, hi]; ring

theorem det3_zero_row3 (m : Mat3) (hi : m.i = 1) (h1 : m.a + m.b + m.c = 0)
    (h2 : m.d + m.e + m.f = 0) (h3 : m.g + m.h + 1 = 0) : det3 m = 0 := by
  have hc : m.c = -(m.a + m.b) := by linarith
  have hf : m.f = -(m.d + m.e) := by linarith
  have hh : m.h = -m.g - 1 := by linarith
  rw [det3, hc, hf, hh, hi]; ring

set_option maxHeartbeats 1000000 in
/-- C1 (amended): for four points whose shared closed-form denominator is
nonzero *and for which the solver actually returns a projection* (the
assembled matrix can be singular even with a nonzero denominator, see the
counterexample), the returned forward matrix has bottom-right entry 1 and
maps the unit-square corners `(0,0), (1,0), (1,1), (0,1)` projectively onto
the four points, in order. -/
theorem c1_solver_maps_unit_corners (xt1 yt1 xt2 yt2 xt3 yt3 xt4 yt4 : ℚ) (P : Proj)
    (hden : solveDenom (xt2, yt2) (xt3, yt3) (xt4, yt4) ≠ 0)
    (hsome : scaled_control_points_to_projection
        [(xt1, yt1), (xt2, yt2), (xt3, yt3), (xt4, yt4)] = some P) :
    P.fwd.i = 1 ∧
    projApply P.fwd (0, 0) = (xt1, yt1) ∧
    projApply P.fwd (1, 0) = (xt2, yt2) ∧
    projApply P.fwd (1, 1) = (xt3, yt3) ∧
    projApply P.fwd (0, 1) = (xt4, yt4) := by
  simp only [solveDenom] at hden
  rw [scp_eq_solveMatrix] at hsome
  set M := solveMatrix xt1 yt1 xt2 yt2 xt3 yt3 xt4 yt4 with hM
  unfold from_matrix at hsome
  split_ifs at hsome with hdet
  rw [Option.some_inj] at hsome
  have hPf : P.fwd = M := by rw [← hsome]
  have hi : M.i = 1 := by rw [hM]; rfl
  have hac : M.a + M.c = (M.g + 1) * xt2 := by
    simp only [hM, solveMatrix]; ring
  have hdf : M.d + M.f = (M.g + 1) * yt2 := by
    simp only [hM, solveMatrix]; ring
  have hbc : M.b + M.c = (M.h + 1) * xt4 := by
    simp only [hM, solveMatrix]; ring
  have hef : M.e + M.f = (M.h + 1) * yt4 := by
    simp only [hM, solveMatrix]; ring
  have habc : M.a + M.b + M.c = (M.g + M.h + 1) * xt3 := by
    simp only [hM, solveMatrix]
    field_simp
    ring
  have hdef : M.d + M.e + M.f = (M.g + M.h + 1) * yt3 := by
    simp only [hM, solveMatrix]
    field_simp
    ring
  have hg1 : M.g + 1 ≠ 0 := by
    intro h0
    exact hdet (det3_zero_row1 M hi (by rw [hac, h0, zero_mul])
      (by rw [hdf, h0, zero_mul]) h0)
  have hh1 : M.h + 1 ≠ 0 := by
    intro h0
    exact hdet (det3_zero_row2 M hi (by rw [hbc, h0, zero_mul])
      (by rw [hef, h0, zero_mul]) h0)
  have hgh1 : M.g + M.h + 1 ≠ 0 := by
    intro h0
    exact hdet (det3_zero_row3 M hi (by rw [habc, h0, zero_mul])
      (by rw [hdef, h0, zero_mul]) h0)
  rw [hPf]
  refine ⟨hi, ?_, ?_, ?_, ?_⟩
  · have hc : M.c = xt1 := by rw [hM]; show 0 + xt1 = xt1; ring
    have hf : M.f = yt1 := by rw [hM]; show 0 + yt1 = yt1; ring
    simp [projApply, hi, hc, hf]
  · simp only [projApply]
    have e1 : M.a * 1 + M.b * 0 + M.c = (M.g + 1) * xt2 := by rw [← hac]; ring
    have e2 : M.d * 1 + M.e * 0 + M.f = (M.g + 1) * yt2 := by rw [← hdf]; ring
    have e3 : M.g * 1 + M.h * 0 + M.i = M.g + 1 := by rw [hi]; ring
    rw [e1, e2, e3, mul_div_cancel_left₀ _ hg1, mul_div_cancel_left₀ _ hg1]
  · simp only [projApply]
    have e1 : M.a * 1 + M.b * 1 + M.c = (M.g + M.h + 1) * xt3 := by rw [← habc]; ring
    have e2 : M.d * 1 + M.e * 1 + M.f = (M.g + M.h + 1) * yt3 := by rw [← hdef]; ring
    have e3 : M.g * 1 + M.h * 1 + M.i = M.g + M.h + 1 := by rw [hi]; ring
    rw [e1, e2, e3, mul_div_cancel_left₀ _ hgh1, mul_div_cancel_left₀ _ hgh1]
  · simp only [projApply]
    have e1 : M.a * 0 + M.b * 1 + M.c = (M.h + 1) * xt4 := by rw [← hbc]; ring
    have e2 : M.d * 0 + M.e * 1 + M.f = (M.h + 1) * yt4 := by rw [← hef]; ring
    have e3 : M.g * 0 + M.h * 1 + M.i = M.h + 1 := by rw [hi]; ring
    rw [e1, e2, e3, mul_div_cancel_left₀ _ hh1, mul_div_cancel_left₀ _ hh1]

/-- C1 counterexample: scaled points whose shared denominator is nonzero
(`1`, in fact) but for which `scaled_control_points_to_projection` returns
`none` (the solved matrix is singular because the 1st, 3rd and 4th points
are collinear), not a projection matrix mapping the corners. -/
theorem c1_counterexample :
    solveDenom (0, 1) (0, 0) (1, 0) ≠ 0 ∧
    scaled_control_points_to_projection [(2, 0), (0, 1), (0, 0), (1, 0)] = none := by
  constructor
  · norm_num [solveDenom]
  · have h : det3 (solveMatrix 2 0 0 1 0 0 1 0) = 0 := by
      norm_num [det3, solveMatrix]
    rw [scp_eq_solveMatrix]
    simp [from_matrix, h]

/-- C1 witness: a genuinely projective trapezoid instance with nonzero
denominator; the returned matrix maps corner `(1,1)` onto the third point. -/
theorem c1_witness :
    solveDenom ((1 : ℚ), 0) (3/4, 1) (1/4, 1) ≠ 0 ∧
    projApply (Mat3.mk 1 (1/2) 0 0 2 0 0 1 1) (1, 1) = (3/4, 1) := by
  have hsome : scaled_control_points_to_projection
      [((0 : ℚ), (0 : ℚ)), (1, 0), (3/4, 1), (1/4, 1)] =
      some ⟨⟨1, 1/2, 0, 0, 2, 0, 0, 1, 1⟩, ⟨2, -1/2, 0, 0, 1, 0, 0, -1, 2⟩⟩ := by
    have h : det3 (solveMatrix 0 0 1 0 (3/4) 1 (1/4) 1) ≠ 0 := by
      norm_num [det3, solveMatrix]
    rw [scp_eq_solveMatrix]
    simp only [from_matrix, h, if_false, if_neg h]
    norm_num [solveMatrix, adj3, Mat3.mk.injEq]
  refine ⟨by norm_num [solveDenom], ?_⟩
  exact (c1_solver_maps_unit_corners 0 0 1 0 (3/4) 1 (1/4) 1 _
    (by norm_num [solveDenom]) hsome).2.2.2.1
